import Mathlib

/-!
Verification of the `mtable` table-driven lexer library (src/src/table.rs and
src/src/error.rs) against its natural-language specification.

The Rust code is shallowly embedded: the node arena is a `List` of nodes, the
table a structure holding the alphabet and the arena, and the pattern compiler
(`Table::add`), the exact-match query (`Table::get`) and the maximal-munch
scanner (`TableIterator::next`) are translated function by function.  Machine
integers are `Nat` (no arithmetic in the source can overflow: all integers are
indices bounded by the sizes of the input lists).  Fallible operations return
`Except`.  Strings are `List Char`; all inputs the library accepts are ASCII,
and every alphabet appearing in the claims is ASCII, so Rust's byte offsets
into the alphabet string coincide with character indices.

Loops of the source that consume input are translated with an explicit
remaining-input counter where Lean's structural recursion needs it; each such
counter is initialised by the public wrapper to a value the loop can never
exhaust (every iteration consumes at least one element), so the exhaustion
branches are unreachable and marked as such.
-/

deriving instance DecidableEq for Except

set_option maxRecDepth 16000

namespace MTable

/-- Errors of `Table::add` / `Table::get` (src/src/error.rs, `TableError`). -/
inductive TableError (V : Type) where
  | invalidString (s : List Char)
  | invalidInput (c : Char)
  | ambiguousPattern (c : Char)
  | invalidRange
  | valueAlreadyDefined (current requested : V)
deriving DecidableEq, Repr

/-- Errors of the scanner (src/src/error.rs, `LexerError`). -/
inductive LexerError where
  | invalidString (s : List Char)
  | unknownChar (c : Char) (position : Nat)
  | unexpectedEnd (position : Nat)
deriving DecidableEq, Repr

/-- A transition node (src/src/table.rs, `struct Node`): a fixed-width vector
of optional child indices plus an optional accept value. -/
structure Node (V : Type) where
  children : List (Option Nat)
  value : Option V
deriving DecidableEq, Repr

/-- Rust `Node::new(capacity)`: all children absent, no value. -/
def Node.new (V : Type) (capacity : Nat) : Node V :=
  ⟨List.replicate capacity none, none⟩

/-- Rust `Node::set_children(index, child)`: writes the child slot; if the slot
already holds a different node id it fails with `AmbiguousPattern` built from
`char::from_u32(child)` (note: from the target node id - `unwrap_or_default`
yields the NUL character, as does `Char.ofNat` for an invalid scalar).  An
out-of-range `index` (where `get_mut` yields `None`) is a silent `Ok`. -/
def Node.setChildren (n : Node V) (index child : Nat) : Except (TableError V) (Node V) :=
  match n.children.get? index with
  | some (some existing) =>
      if existing ≠ child then .error (.ambiguousPattern (Char.ofNat child))
      else .ok { n with children := n.children.set index (some child) }
  | some none => .ok { n with children := n.children.set index (some child) }
  | none => .ok n

/-- Rust `Node::get_children(index)`: reads a child slot; out of range is absent. -/
def Node.getChildren (n : Node V) (index : Nat) : Option Nat :=
  (n.children.get? index).bind id

/-- Rust `Node::set_value(value)`: fails with `ValueAlreadyDefined` carrying the
current and the requested payload when the value is already set. -/
def Node.setValue (n : Node V) (value : V) : Except (TableError V) (Node V) :=
  match n.value with
  | some current => .error (.valueAlreadyDefined current value)
  | none => .ok { n with value := some value }

/-- The table (src/src/table.rs, `struct Table`): the alphabet and the node
arena; node 0 is the root. -/
structure Table (V : Type) where
  alphabet : List Char
  nodes : List (Node V)
deriving DecidableEq, Repr

/-- Rust `Table::new(alphabet)`: one root node whose fan-out is the alphabet size. -/
def Table.new (V : Type) (alphabet : List Char) : Table V :=
  ⟨alphabet, [Node.new V alphabet.length]⟩

/-- Position of a character in the alphabet: Rust's `str::find`, the index of
the first occurrence (for the ASCII alphabets of the claims, byte offset and
character index agree). -/
def findPos (c : Char) : List Char → Option Nat
  | [] => none
  | a :: rest => if a = c then some 0 else (findPos c rest).map (· + 1)

/-- Rust `Table::calculate_position(ch)`: alphabet lookup or `InvalidInput`. -/
def calculatePosition (t : Table V) (c : Char) : Except (TableError V) Nat :=
  match findPos c t.alphabet with
  | some p => .ok p
  | none => .error (.invalidInput c)

/-- Read a node of the arena.  Node ids handed around by the compiler and the
scanner are always in range (Rust would panic otherwise); the out-of-range
case is totalised with an empty node. -/
def getNode (t : Table V) (i : Nat) : Node V :=
  t.nodes.getD i (Node.new V 0)

/-- Replace a node of the arena. -/
def setNode (t : Table V) (i : Nat) (n : Node V) : Table V :=
  { t with nodes := t.nodes.set i n }

/-- One `set_children` call whose `Result` the caller drops, as `Table::add`
does at both of its call sites (the file opens with `#![allow(unused)]`): on
`AmbiguousPattern` the node - hence the table - is left unchanged. -/
def linkDropped (t : Table V) (nodeId index child : Nat) : Table V :=
  match (getNode t nodeId).setChildren index child with
  | .ok n => setNode t nodeId n
  | .error _ => t

/-- Rust `Table::append_node(current, child)`: reuse the existing transition or
allocate a fresh node and link it (the `set_children` here always succeeds -
the slot is empty - and its `Result` is dropped anyway). -/
def appendNode (t : Table V) (current child : Nat) : Table V × Nat :=
  match (getNode t current).getChildren child with
  | some next => (t, next)
  | none =>
      let t1 : Table V := { t with nodes := t.nodes ++ [Node.new V t.alphabet.length] }
      let newChild := t1.nodes.length - 1
      (linkDropped t1 current child newChild, newChild)

/-- Rust `Table::add_from_range(range, currents)`: the next frontier, one successor
per frontier node and range position, in frontier order then range order.
(In the source this returns `Result`, but `append_node` never fails.) -/
def addFromRange (t : Table V) (range : List Nat) (currents : List Nat) :
    Table V × List Nat :=
  currents.foldl
    (fun acc current =>
      range.foldl
        (fun acc2 pos =>
          let r := appendNode acc2.1 current pos
          (r.1, acc2.2 ++ [r.2]))
        acc)
    (t, [])

/-- The class-parsing loop of `Table::add` (the `b'['` arm): consume bytes up
to `]`, collecting alphabet positions de-duplicated in first-seen order; a
missing `]` or an empty class is `InvalidRange`, a byte outside the alphabet
is `InvalidInput`.  Returns the range and the input after the `]`. -/
def parseClass (t : Table V) : List Char → List Nat →
    Except (TableError V) (List Nat × List Char)
  | [], _ => .error .invalidRange
  | c :: rest, range =>
      if c = ']' then
        if range.isEmpty then .error .invalidRange else .ok (range, rest)
      else
        match calculatePosition t c with
        | .error e => .error e
        | .ok pos =>
            parseClass t rest (if pos ∈ range then range else range ++ [pos])

/-- The repetition handler of `Table::add` (the `b'+'` peek): for every
frontier node and every range position, a self-loop `set_children(pos,
current)` whose `Result` is dropped. -/
def selfLoops (t : Table V) (currents : List Nat) (range : List Nat) : Table V :=
  currents.foldl
    (fun acc current =>
      range.foldl (fun acc2 pos => linkDropped acc2 current pos current) acc)
    t

/-- The `while let Some(ch) = iter.next()` loop of `Table::add`.  `fuel`
bounds the number of iterations; every iteration consumes at least one input
character, so the wrapper's `chars.length + 1` can never run out and the
zero case is unreachable. -/
def addLoop (t : Table V) : Nat → List Char → List Nat →
    Except (TableError V) (Table V × List Nat)
  | 0, _, _ => .error .invalidRange
  | _ + 1, [], currents => .ok (t, currents)
  | fuel + 1, ch :: rest, currents =>
      let atomRes : Except (TableError V) (List Nat × List Char) :=
        if ch = '[' then parseClass t rest []
        else
          match calculatePosition t ch with
          | .ok pos => .ok ([pos], rest)
          | .error e => .error e
      match atomRes with
      | .error e => .error e
      | .ok (range, rest1) =>
          let r := addFromRange t range currents
          match rest1 with
          | '+' :: rest2 =>
              addLoop (selfLoops r.1 r.2 range) fuel rest2 r.2
          | _ => addLoop r.1 fuel rest1 r.2

/-- The value-installation loop at the end of `Table::add`: `set_value` on
each listed node, propagating the first error (the `?` operator). -/
def setValues (t : Table V) : List Nat → V → Except (TableError V) (Table V)
  | [], _ => .ok t
  | i :: rest, v =>
      match (getNode t i).setValue v with
      | .error e => .error e
      | .ok n => setValues (setNode t i n) rest v

/-- First-occurrence de-duplication of the final frontier.  The source drains
`currents` into a `HashSet`, whose iteration order is unspecified; the set of
nodes that receive the value, and whether `add` succeeds, do not depend on
that order, so a deterministic first-occurrence order is used here. -/
def dedup (l : List Nat) : List Nat :=
  l.foldl (fun acc x => if x ∈ acc then acc else acc ++ [x]) []

/-- Rust's `str::is_ascii` on the character level. -/
def asciiOnly (s : List Char) : Bool :=
  s.all (fun c => c.toNat < 128)

/-- Rust `Table::add(s, value)` (src/src/table.rs lines 108-149). -/
def add (t : Table V) (s : List Char) (value : V) : Except (TableError V) (Table V) :=
  if ¬ asciiOnly s then .error (.invalidString s)
  else
    match addLoop t (s.length + 1) s [0] with
    | .error e => .error e
    | .ok (t1, currents) => setValues t1 (dedup currents) value

/-- The transition loop of `Table::get`. -/
def getLoop (t : Table V) (current : Nat) : List Char → Except (TableError V) (Option V)
  | [] => .ok (getNode t current).value
  | c :: rest =>
      match findPos c t.alphabet with
      | none => .error (.invalidInput c)
      | some pos =>
          match (getNode t current).getChildren pos with
          | some next => getLoop t next rest
          | none => .ok none

/-- Rust `Table::get(s)` (src/src/table.rs lines 151-169): exact-consumption
lookup from the root. -/
def get (t : Table V) (s : List Char) : Except (TableError V) (Option V) :=
  if ¬ asciiOnly s then .error (.invalidString s)
  else getLoop t 0 s

/-- Rust `Table::lexer(s)` (src/src/table.rs lines 171-182): rejects non-ASCII
input, otherwise returns the iterator's initial cursor (0). -/
def lexer (t : Table V) (s : List Char) : Except LexerError Nat :=
  if ¬ asciiOnly s then .error (.invalidString s)
  else .ok 0

/-- The two identical emission sites of `TableIterator::next`: return the top
candidate `(value, self.index, last + 1)` - the token covers input indices
`[self.index, last]` - or `UnexpectedEnd` at the scan's start. -/
def emitCandidate (index : Nat) : List (Nat × V) → Except LexerError (V × Nat × Nat)
  | (last, value) :: _ => .ok (value, index, last + 1)
  | [] => .error (.unexpectedEnd index)

/-- The scan loop of `TableIterator::next` (src/src/table.rs lines 201-242).
`lastMatch` is the candidate stack (head = most recent push = longest match
so far).  `fuel` is the remaining input length `s.length - progress`; the
zero case therefore coincides with the `progress >= input.len()` check. -/
def scanLoop (t : Table V) (s : List Char) (index : Nat) :
    Nat → Nat → List (Nat × V) → Nat → Except LexerError (V × Nat × Nat)
  | _, _, lastMatch, 0 => emitCandidate index lastMatch
  | nodeId, progress, lastMatch, fuel + 1 =>
      if h : progress < s.length then
        let ch := s.get ⟨progress, h⟩
        match findPos ch t.alphabet with
        | none => .error (.unknownChar ch progress)
        | some pos =>
            match (getNode t nodeId).getChildren pos with
            | some next =>
                scanLoop t s index next (progress + 1)
                  (match (getNode t next).value with
                   | some v => (progress, v) :: lastMatch
                   | none => lastMatch)
                  fuel
            | none => emitCandidate index lastMatch
      else emitCandidate index lastMatch

/-- Rust `TableIterator::next` with cursor `index`: `none` when the cursor is at or
past the end of input, otherwise one scan from the root with an empty
candidate stack.  A returned token is `(value, index, e)`: its slice covers
input indices `[index, e)` and the cursor advances to `e`. -/
def iterNext (t : Table V) (s : List Char) (index : Nat) :
    Option (Except LexerError (V × Nat × Nat)) :=
  if s.length ≤ index then none
  else some (scanLoop t s index 0 index [] (s.length - index))

/-- Collecting the iterator into `Result<Vec<_>, _>`: pull until `None`,
stopping at the first error.  `fuel` bounds the number of pulls; every token
advances the cursor, so the wrapper's `s.length + 1` never runs out. -/
def collectTokens (t : Table V) (s : List Char) : Nat → Nat →
    Except LexerError (List (V × Nat × Nat))
  | 0, index => .error (.unexpectedEnd index)
  | fuel + 1, index =>
      match iterNext t s index with
      | none => .ok []
      | some (.error e) => .error e
      | some (.ok tok) =>
          match collectTokens t s fuel tok.2.2 with
          | .error e => .error e
          | .ok rest => .ok (tok :: rest)

/-- The whole token sequence of `lexer(s).collect::<Result<Vec<_>, _>>()`. -/
def lexAll (t : Table V) (s : List Char) : Except LexerError (List (V × Nat × Nat)) :=
  collectTokens t s (s.length + 1) 0

/-- The sub-list of `s` covering indices `[a, b)` - the token slice
`&input[a..b]`. -/
def slice (s : List Char) (a b : Nat) : List Char :=
  (s.drop a).take (b - a)

/-- Adjacency of a token list: `covers i toks j` holds when the tokens start
exactly at `i`, each token is non-empty and starts where its predecessor
ended (its predecessor's inclusive end index plus one), and the last token
ends exactly at `j`. -/
def covers (V : Type) : Nat → List (V × Nat × Nat) → Nat → Prop
  | i, [], j => i = j
  | i, (_, a, b) :: rest, j => a = i ∧ i < b ∧ covers V b rest j

/-- One transition step of the compiled automaton at input position `j`:
absent when the input is exhausted, the character is outside the alphabet, or
the node has no transition on it. -/
def stepAt (t : Table V) (s : List Char) (nodeId j : Nat) : Option Nat :=
  if h : j < s.length then
    match findPos (s.get ⟨j, h⟩) t.alphabet with
    | none => none
    | some pos => (getNode t nodeId).getChildren pos
  else none

/-- The node reached from `nodeId` after consuming `l` characters of `s`
starting at position `j`, when every step exists. -/
def walkAux (t : Table V) (s : List Char) : Nat → Nat → Nat → Option Nat
  | nodeId, _, 0 => some nodeId
  | nodeId, j, l + 1 =>
      match stepAt t s nodeId j with
      | some next => walkAux t s next (j + 1) l
      | none => none

/-- The node reached from the root on the length-`l` prefix of `s` that
starts at position `i`. -/
def walkFrom (t : Table V) (s : List Char) (i l : Nat) : Option Nat :=
  walkAux t s 0 i l

/-- The accept value of a node id. -/
def nodeValue (t : Table V) (i : Nat) : Option V :=
  (getNode t i).value

/-- The accept value reached on the length-`l` prefix of `s` starting at
position `i`: `some v` exactly when that prefix is an accepting prefix. -/
def valueAt (t : Table V) (s : List Char) (i l : Nat) : Option V :=
  (walkFrom t s i l).bind (nodeValue t)

/-- The pattern mini-language of spec section 6, parsed by its EBNF: `pattern
::= atom*`, `atom ::= (literal | class) [+]`, a class collecting its members
up to `]` with first-occurrence de-duplication ('none' for a malformed
pattern: unterminated or empty class).  This definition follows the spec's
words, independently of the compiler, for comparison with the code's
behaviour.  `fuel` bounds the atom count; each atom consumes at least one
character, so the wrapper's `pattern.length + 1` never runs out. -/
def specAtoms : Nat → List Char → Option (List (List Char × Bool))
  | 0, _ => none
  | _ + 1, [] => some []
  | fuel + 1, '[' :: rest =>
      let cls := rest.takeWhile (· ≠ ']')
      match rest.dropWhile (· ≠ ']') with
      | ']' :: rest1 =>
          if cls.isEmpty then none
          else
            let dcls := cls.foldl (fun acc c => if c ∈ acc then acc else acc ++ [c]) []
            match rest1 with
            | '+' :: rest2 => (specAtoms fuel rest2).map (fun l => (dcls, true) :: l)
            | _ => (specAtoms fuel rest1).map (fun l => (dcls, false) :: l)
      | _ => none
  | fuel + 1, c :: rest =>
      match rest with
      | '+' :: rest2 => (specAtoms fuel rest2).map (fun l => ([c], true) :: l)
      | _ => (specAtoms fuel rest).map (fun l => ([c], false) :: l)

/-- Acceptance of a string by a parsed atom list, following the spec's
semantics: a plain atom consumes exactly one member character, a `+` atom one
or more.  `fuel` bounds the recursion; every call reduces the atom count or
the string, so `atoms.length + s.length + 1` never runs out. -/
def specMatch : Nat → List (List Char × Bool) → List Char → Bool
  | 0, _, _ => false
  | _ + 1, [], s => s.isEmpty
  | _ + 1, _ :: _, [] => false
  | fuel + 1, (cs, false) :: rest, c :: s => cs.contains c && specMatch fuel rest s
  | fuel + 1, (cs, true) :: rest, c :: s =>
      cs.contains c && (specMatch fuel rest s || specMatch fuel ((cs, true) :: rest) s)

/-- The language of spec section 6: `s` is accepted by `pattern` iff the
pattern is well-formed and some decomposition of `s` matches its atoms. -/
def specAccepts (pattern s : List Char) : Bool :=
  match specAtoms (pattern.length + 1) pattern with
  | none => false
  | some atoms => specMatch (atoms.length + s.length + 1) atoms s

/-- Unwrap a successful result (used only to name concrete tables whose
construction is separately proven to succeed). -/
def okD (r : Except ε α) (d : α) : α :=
  match r with
  | .ok x => x
  | .error _ => d

/-- The two-character alphabet `ab`. -/
def alphaAB : List Char := ['a', 'b']

/-- The convergent pattern `[ab]+[ab]` of spec scenario 3. -/
def patConv : List Char := ['[', 'a', 'b', ']', '+', '[', 'a', 'b', ']']

/-- The table obtained by `add("[ab]+[ab]", 7)` on a fresh table over `ab`. -/
def TC1 : Table Nat :=
  okD (add (Table.new Nat alphaAB) patConv 7) (Table.new Nat alphaAB)

/-- The pattern `a+[ab]+`, whose repetition handling hits an occupied slot. -/
def patOverlap : List Char := ['a', '+', '[', 'a', 'b', ']', '+']

/-- The table obtained by `add("a+[ab]+", 5)` on a fresh table over `ab`. -/
def TC7 : Table Nat :=
  okD (add (Table.new Nat alphaAB) patOverlap 5) (Table.new Nat alphaAB)

/-- The table of spec scenario 4: alphabet `=`, `"=" -> 1` (Eq) and
`"==" -> 2` (EqEq). -/
def T2 : Table Nat :=
  okD (add (okD (add (Table.new Nat ['=']) ['='] 1) (Table.new Nat ['=']))
        ['=', '='] 2)
    (Table.new Nat ['='])

/-- The input `===` of spec scenario 4. -/
def eqs : List Char := ['=', '=', '=']

/-- The decimal-digit alphabet. -/
def digits : List Char := ['0', '1', '2', '3', '4', '5', '6', '7', '8', '9']

/-- The table of spec scenario 5: alphabet `0123456789`,
`"[0123456789]+" -> 42` (Num). -/
def TD : Table Nat :=
  okD (add (Table.new Nat digits)
        (['['] ++ digits ++ [']', '+']) 42)
    (Table.new Nat digits)

/-- The input `12@34` of spec scenario 5. -/
def in12at34 : List Char := ['1', '2', '@', '3', '4']

/-- The table of spec scenario 6: alphabet `abcdef`, `"abc" -> 9` (Abc). -/
def T9 : Table Nat :=
  okD (add (Table.new Nat ['a', 'b', 'c', 'd', 'e', 'f']) ['a', 'b', 'c'] 9)
    (Table.new Nat ['a', 'b', 'c', 'd', 'e', 'f'])

/-- The input `abcdef` of spec scenario 6. -/
def inAbcDef : List Char := ['a', 'b', 'c', 'd', 'e', 'f']

/-- A one-letter table holding `"aa" -> 1`, whose node 1 has a non-loop child
on `a` (used to exhibit the discarded `AmbiguousPattern`). -/
def T1a : Table Nat :=
  okD (add (Table.new Nat ['a']) ['a', 'a'] 1) (Table.new Nat ['a'])

/-- A one-letter table holding `"a" -> 1` (the accept value sits on node 1). -/
def T1b : Table Nat :=
  okD (add (Table.new Nat ['a']) ['a'] 1) (Table.new Nat ['a'])

/-- All nodes of a table are valueless (the state of a table on which no
`add` has yet installed a value). -/
def valuesNone (t : Table V) : Prop :=
  ∀ n ∈ t.nodes, n.value = none

/-- The explicit value of the table compiled from `[ab]+[ab]`: the root
branches to node 1 (on `a`) and node 2 (on `b`), each of which absorbs both
letters into itself and accepts. -/
def TC1lit : Table Nat :=
  ⟨alphaAB,
    [⟨[some 1, some 2], none⟩, ⟨[some 1, some 1], some 7⟩,
     ⟨[some 2, some 2], some 7⟩]⟩

lemma TC1_eq : TC1 = TC1lit := by decide

/-- From node 1 or node 2 of the `[ab]+[ab]` table, any string over `ab`
is absorbed and ends on an accepting node. -/
lemma TC1_absorb :
    ∀ (s : List Char) (n : Nat), n = 1 ∨ n = 2 →
      (∀ c ∈ s, c = 'a' ∨ c = 'b') → getLoop TC1lit n s = .ok (some 7) := by
  intro s
  induction s with
  | nil => rintro n (rfl | rfl) _ <;> rfl
  | cons c rest ih =>
      rintro n hn hs
      have hc := hs c (List.mem_cons_self c rest)
      have hrest : ∀ x ∈ rest, x = 'a' ∨ x = 'b' :=
        fun x hx => hs x (List.mem_cons_of_mem c hx)
      rcases hn with rfl | rfl <;> rcases hc with rfl | rfl
      · exact ih 1 (Or.inl rfl) hrest
      · exact ih 1 (Or.inl rfl) hrest
      · exact ih 2 (Or.inr rfl) hrest
      · exact ih 2 (Or.inr rfl) hrest

/-- C1, counterexample.  On a fresh table over `ab`, the single call
`add("[ab]+[ab]", 7)` succeeds, the string `"a"` - a string over the
alphabet - is rejected by `[ab]+[ab]` in the pattern language of spec
section 6, no other `add` was issued, and yet `get("a")` returns `Some 7`
rather than `None`: the rejected-strings half of the claim fails. -/
theorem C1_counterexample :
    add (Table.new Nat alphaAB) patConv 7 = .ok TC1 ∧
    specAccepts patConv ['a'] = false ∧
    get TC1 ['a'] = .ok (some 7) := by decide

/-- C1, amended.  `get` consistency holds relative to the language the
compiled automaton actually realises: when a `+` atom's range overlaps the
following atom, the silently dropped conflicting links make the pattern
behave as its convergent equivalent.  For the scenario-3 table
(`add("[ab]+[ab]", 7)` over alphabet `ab`), `get` answers `Some 7` for
exactly the non-empty strings over the alphabet - the language of `[ab]+` -
so strings of length 1, though rejected by the written pattern, map to the
value. -/
theorem C1_amended (s : List Char) (hs : ∀ c ∈ s, c = 'a' ∨ c = 'b') :
    get TC1 s = .ok (some 7) ↔ s ≠ [] := by
  rw [TC1_eq]
  have hascii : asciiOnly s = true := by
    simp only [asciiOnly, List.all_eq_true]
    intro x hx
    rcases hs x hx with rfl | rfl <;> decide
  constructor
  · intro h hnil
    subst hnil
    exact absurd h (by decide)
  · intro hne
    obtain ⟨c, rest, rfl⟩ := List.exists_cons_of_ne_nil hne
    have hrest : ∀ x ∈ rest, x = 'a' ∨ x = 'b' :=
      fun x hx => hs x (List.mem_cons_of_mem c hx)
    show get TC1lit (c :: rest) = .ok (some 7)
    unfold get
    rw [hascii]
    simp only [Bool.not_true, Bool.false_eq_true, not_false_iff, if_neg,
      not_true_eq_false]
    rcases hs c (List.mem_cons_self c rest) with rfl | rfl
    · exact TC1_absorb rest 1 (Or.inl rfl) hrest
    · exact TC1_absorb rest 2 (Or.inr rfl) hrest

/-- C1, witness for the amended claim at `s = "ba"`. -/
theorem C1_amended_witness : get TC1 ['b', 'a'] = .ok (some 7) :=
  (C1_amended ['b', 'a'] (by decide)).mpr (by decide)

/-- C6.  Permissive convergence: on a fresh table over `ab`,
`add("[ab]+[ab]", 7)` returns `Ok`, and afterwards `get` answers `Some 7` on
`"a"`, `"b"`, `"ab"` and `"ba"` - the pattern behaves as `[ab]+` (spec
scenario 3). -/
theorem C6_permissive_convergence :
    add (Table.new Nat alphaAB) patConv 7 = .ok TC1 ∧
    get TC1 ['a'] = .ok (some 7) ∧
    get TC1 ['b'] = .ok (some 7) ∧
    get TC1 ['a', 'b'] = .ok (some 7) ∧
    get TC1 ['b', 'a'] = .ok (some 7) := by decide

/-- C5, counterexample.  Building `"aa" -> 1` over the one-letter alphabet
`a` puts `children[0] = node 2` on node 1; the subsequent `add("a+", 2)`
must self-loop node 1 on `a`, and its `set_children(0, 1)` call does return
`AmbiguousPattern` - with payload `char::from(1)`, the target node id, not
the transition character - but `Table::add` drops that `Result`, so the add
`Ok`s (leaving the slot pointing at node 2).  `Table::new` takes only the
alphabet: no construction-time configuration exists, and `add` never
surfaces `AmbiguousPattern`. -/
theorem C5_counterexample :
    add (Table.new Nat ['a']) ['a', 'a'] 1 = .ok T1a ∧
    (getNode T1a 1).getChildren 0 = some 2 ∧
    (getNode T1a 1).setChildren 0 1 = .error (.ambiguousPattern (Char.ofNat 1)) ∧
    add T1a ['a', '+'] 2 =
      .ok ⟨['a'], [⟨[some 1], none⟩, ⟨[some 2], some 2⟩, ⟨[none], some 1⟩]⟩ := by
  decide

/-- C5, amended.  The `AmbiguousPattern` error lives one level down:
`Node::set_children` on a slot that already holds a different node id fails
with `AmbiguousPattern(c)`, where `c` is `char::from` of the requested
target node id; `Table::add` discards that `Result` at both call sites, so
compilation is always permissive and the error never reaches the caller. -/
theorem C5_amended {V : Type} (n : Node V) (i existing child : Nat)
    (h1 : n.children.get? i = some (some existing)) (h2 : existing ≠ child) :
    n.setChildren i child = .error (.ambiguousPattern (Char.ofNat child)) := by
  unfold Node.setChildren
  rw [h1]
  simp [h2]

/-- C5, witness for the amended claim: the very `set_children` call that the
`add("a+", 2)` compilation performs on node 1 of `T1a`. -/
theorem C5_amended_witness :
    (getNode T1a 1).setChildren 0 1 =
      .error (.ambiguousPattern (Char.ofNat 1)) :=
  C5_amended (getNode T1a 1) 0 2 1 (by decide) (by decide)

/-- C7, counterexample.  Compiling `a+[ab]+` over `ab`: the frontier
immediately after the final atom `[ab]+` is `[1, 2]`, yet node 1's child on
`b` (position 1) is node 2, not the self-loop the claim requires - the
repetition handler's `set_children(1, 1)` hit the slot already holding node
2 and was silently dropped.  The full `add` nevertheless returns `Ok`. -/
theorem C7_counterexample :
    addLoop (Table.new Nat alphaAB) 8 patOverlap [0] =
      .ok (⟨alphaAB,
            [⟨[some 1, none], none⟩, ⟨[some 1, some 2], none⟩,
             ⟨[some 2, some 2], none⟩]⟩,
           [1, 2]) ∧
    add (Table.new Nat alphaAB) patOverlap 5 = .ok TC7 ∧
    (getNode TC7 1).getChildren 1 = some 2 := by decide

/-- C7, amended.  Self-loops are installed only into empty slots or slots
already holding the self-loop, so a frontier node after `A+` may lack the
self-loop on part of `A`'s range (see the counterexample); conversely, the
second half of the claim is unconditionally true: a slot that holds a
self-loop is never overwritten by a dropped-`Result` link with a different
target. -/
theorem C7_amended {V : Type} (t : Table V) (nid i c : Nat)
    (h : (getNode t nid).getChildren i = some nid) :
    (getNode (linkDropped t nid i c) nid).getChildren i = some nid := by
  have hget : (getNode t nid).children.get? i = some (some nid) := by
    unfold Node.getChildren at h
    cases hq : (getNode t nid).children.get? i with
    | none => rw [hq] at h; simp at h
    | some o =>
        rw [hq] at h
        cases o with
        | none => simp at h
        | some x => simp at h; rw [h]
  have hlen : i < (getNode t nid).children.length := by
    rw [List.get?_eq_getElem?] at hget
    exact (List.getElem?_eq_some.mp hget).1
  have hlt : nid < t.nodes.length := by
    by_contra hge
    push_neg at hge
    have hdef : getNode t nid = Node.new V 0 := by
      unfold getNode
      exact List.getD_eq_default _ _ hge
    rw [hdef] at hget
    simp [Node.new] at hget
  have hsetnode : ∀ n : Node V, getNode (setNode t nid n) nid = n := by
    intro n
    unfold getNode setNode
    simp only [List.getD_eq_getElem?_getD, List.getElem?_set_self hlt,
      Option.getD_some]
  unfold linkDropped Node.setChildren
  rw [hget]
  by_cases hc : nid = c
  · subst hc
    simp only [ne_eq, not_true_eq_false, ite_false]
    rw [hsetnode]
    unfold Node.getChildren
    rw [List.get?_eq_getElem?, List.getElem?_set_self hlen]
    rfl
  · simp only [ne_eq, hc, not_false_iff, ite_true]
    exact h

/-- C10.  A pull with the cursor at or beyond the end of input returns
`None`; `lexer("")` succeeds (returning the iterator, cursor 0) and collects
to the empty token sequence rather than erroring. -/
theorem C10_termination (t : Table V) (s : List Char) (i : Nat)
    (hi : s.length ≤ i) :
    iterNext t s i = none ∧ lexer t ([] : List Char) = .ok 0 ∧
      lexAll t ([] : List Char) = .ok [] := by
  refine ⟨?_, rfl, rfl⟩
  unfold iterNext
  simp [hi]

/-- C10, witness: the scenario-6 table, input `"a"`, cursor 1 (just past the
end). -/
theorem C10_witness :
    iterNext T9 ['a'] 1 = none ∧ lexer T9 ([] : List Char) = .ok 0 ∧
      lexAll T9 ([] : List Char) = .ok [] :=
  C10_termination T9 ['a'] 1 (by decide)

/-- C7, witness for the amended claim: node 2 of the `a+[ab]+` table holds a
self-loop on `a`; a dropped-`Result` link towards node 5 leaves it intact. -/
theorem C7_amended_witness :
    (getNode (linkDropped TC7 2 0 5) 2).getChildren 0 = some 2 :=
  C7_amended TC7 2 0 5 (by decide)

lemma stepAt_some_elim {t : Table V} {s : List Char} {n j m : Nat}
    (h : stepAt t s n j = some m) :
    ∃ (hlt : j < s.length) (pos : Nat),
      findPos (s.get ⟨j, hlt⟩) t.alphabet = some pos ∧
        (getNode t n).getChildren pos = some m := by
  unfold stepAt at h
  by_cases hlt : j < s.length
  · rw [dif_pos hlt] at h
    refine ⟨hlt, ?_⟩
    cases hf : findPos (s.get ⟨j, hlt⟩) t.alphabet with
    | none => rw [hf] at h; exact absurd h (by simp)
    | some pos => rw [hf] at h; exact ⟨pos, rfl, h⟩
  · rw [dif_neg hlt] at h
    exact absurd h (by simp)

lemma walk_snoc (t : Table V) (s : List Char) :
    ∀ (l nodeId j : Nat),
      walkAux t s nodeId j (l + 1) =
        (walkAux t s nodeId j l).bind (fun m => stepAt t s m (j + l)) := by
  intro l
  induction l with
  | zero =>
      intro nodeId j
      cases hs : stepAt t s nodeId j <;> simp [walkAux, hs]
  | succ l ih =>
      intro nodeId j
      cases hs : stepAt t s nodeId j with
      | none => simp [walkAux, hs]
      | some next =>
          have hl : walkAux t s nodeId j (l + 1 + 1) = walkAux t s next (j + 1) (l + 1) := by
            simp [walkAux, hs]
          have hr : walkAux t s nodeId j (l + 1) = walkAux t s next (j + 1) l := by
            simp [walkAux, hs]
          rw [hl, ih next (j + 1), hr]
          have harith : j + 1 + l = j + (l + 1) := by omega
          rw [harith]

lemma walk_le (t : Table V) (s : List Char) (n j : Nat) :
    ∀ (L l : Nat), l ≤ L → (walkAux t s n j L).isSome → (walkAux t s n j l).isSome := by
  intro L
  induction L with
  | zero =>
      intro l hl hs
      have : l = 0 := by omega
      subst this
      exact hs
  | succ L ih =>
      intro l hl hs
      rw [walk_snoc t s L n j] at hs
      have hL : (walkAux t s n j L).isSome := by
        cases hq : walkAux t s n j L with
        | none => rw [hq] at hs; exact absurd hs (by simp)
        | some m => simp
      rcases Nat.lt_or_ge l (L + 1) with hlt | hge
      · exact ih l (by omega) hL
      · have : l = L + 1 := by omega
        subst this
        rw [walk_snoc t s L n j]
        exact hs

lemma scanLoop_end {t : Table V} {s : List Char} {index nodeId progress : Nat}
    {stack : List (Nat × V)} (fuel : Nat) (hge : s.length ≤ progress) :
    scanLoop t s index nodeId progress stack fuel = emitCandidate index stack := by
  cases fuel with
  | zero => rfl
  | succ f =>
      simp only [scanLoop]
      rw [dif_neg (by omega)]

lemma scanLoop_unknown_eq {t : Table V} {s : List Char} {index nodeId progress : Nat}
    {stack : List (Nat × V)} (fuel : Nat) (hlt : progress < s.length)
    (hfp : findPos (s.get ⟨progress, hlt⟩) t.alphabet = none) :
    scanLoop t s index nodeId progress stack (fuel + 1) =
      .error (.unknownChar (s.get ⟨progress, hlt⟩) progress) := by
  simp only [scanLoop]
  rw [dif_pos hlt, hfp]

lemma scanLoop_dead {t : Table V} {s : List Char} {index nodeId progress : Nat}
    {stack : List (Nat × V)} (fuel : Nat) (hlt : progress < s.length) {pos : Nat}
    (hfp : findPos (s.get ⟨progress, hlt⟩) t.alphabet = some pos)
    (hch : (getNode t nodeId).getChildren pos = none) :
    scanLoop t s index nodeId progress stack (fuel + 1) = emitCandidate index stack := by
  simp only [scanLoop]
  rw [dif_pos hlt, hfp]
  simp only []
  rw [hch]

lemma scanLoop_step {t : Table V} {s : List Char} {index nodeId progress : Nat}
    {stack : List (Nat × V)} (fuel : Nat) (hlt : progress < s.length) {pos next : Nat}
    (hfp : findPos (s.get ⟨progress, hlt⟩) t.alphabet = some pos)
    (hch : (getNode t nodeId).getChildren pos = some next) :
    scanLoop t s index nodeId progress stack (fuel + 1) =
      scanLoop t s index next (progress + 1)
        (match (getNode t next).value with
         | some v => (progress, v) :: stack
         | none => stack) fuel := by
  simp only [scanLoop]
  rw [dif_pos hlt, hfp]
  simp only []
  rw [hch]

/-- Core maximal-munch argument: if an accepting prefix of length `lk ≥ 1`
exists, no longer accepting prefix exists up to the walk's stopping point
`L`, and the walk stops at `L` by end of input or by a missing transition on
an in-alphabet character, then the scan - resumed anywhere along the walk
with a candidate stack whose top is the `lk` match once it has been passed -
returns the token of length `lk`. -/
lemma scanMunchAux (t : Table V) (s : List Char) (i lk L : Nat) (v : V) (nL : Nat)
    (h1 : 1 ≤ lk) (hkL : lk ≤ L)
    (hacc : valueAt t s i lk = some v)
    (hmax : ∀ l n, lk < l → l ≤ L → walkFrom t s i l = some n → nodeValue t n = none)
    (hwL : walkFrom t s i L = some nL)
    (hstop : i + L = s.length ∨
      ∃ c pos, s.get? (i + L) = some c ∧ findPos c t.alphabet = some pos ∧
        (getNode t nL).getChildren pos = none) :
    ∀ (k l node : Nat) (stack : List (Nat × V)),
      l + k = L → walkFrom t s i l = some node →
      (lk ≤ l → stack.head? = some (i + lk - 1, v)) →
      scanLoop t s i node (i + l) stack (s.length - (i + l)) = .ok (v, i, i + lk) := by
  intro k
  induction k with
  | zero =>
      intro l node stack hkl hw hstack
      have hlL : l = L := by omega
      subst hlL
      obtain rfl : node = nL := Option.some.inj (hw.symm.trans hwL)
      have hhead := hstack hkL
      obtain ⟨hd, rest, rfl⟩ : ∃ hd rest, stack = hd :: rest := by
        cases stack with
        | nil => simp at hhead
        | cons hd tl => exact ⟨hd, tl, rfl⟩
      obtain rfl : hd = (i + lk - 1, v) := by simpa [List.head?] using hhead
      have hemit : emitCandidate i ((i + lk - 1, v) :: rest) = .ok (v, i, i + lk) := by
        have harith : i + lk - 1 + 1 = i + lk := by omega
        simp only [emitCandidate, harith]
      rcases hstop with hend | ⟨c, pos, hg, hfp, hch⟩
      · rw [show s.length - (i + l) = 0 from by omega]
        rw [scanLoop_end 0 (by omega)]
        exact hemit
      · have hlt : i + l < s.length := by
          rw [List.get?_eq_getElem?] at hg
          exact (List.getElem?_eq_some.mp hg).1
        obtain ⟨f, hf⟩ : ∃ f, s.length - (i + l) = f + 1 :=
          ⟨s.length - (i + l) - 1, by omega⟩
        rw [hf]
        have hgc : s.get ⟨i + l, hlt⟩ = c := by
          rw [List.get?_eq_getElem?] at hg
          obtain ⟨hb, hh⟩ := List.getElem?_eq_some.mp hg
          rw [List.get_eq_getElem]
          exact hh
        rw [scanLoop_dead f hlt (hgc ▸ hfp) hch]
        exact hemit
  | succ k ih =>
      intro l node stack hkl hw hstack
      have hl1 : l + 1 ≤ L := by omega
      have hw1 : (walkAux t s 0 i (l + 1)).isSome := by
        apply walk_le t s 0 i L (l + 1) hl1
        unfold walkFrom at hwL
        rw [hwL]
        rfl
      obtain ⟨next, hnext⟩ := Option.isSome_iff_exists.mp hw1
      have hnextW : walkFrom t s i (l + 1) = some next := hnext
      have hnext' : stepAt t s node (i + l) = some next := by
        have hsnoc := walk_snoc t s l 0 i
        rw [hsnoc] at hnext
        unfold walkFrom at hw
        rw [hw] at hnext
        simpa using hnext
      obtain ⟨hlt, pos, hfp, hch⟩ := stepAt_some_elim hnext'
      obtain ⟨f, hf⟩ : ∃ f, s.length - (i + l) = f + 1 :=
        ⟨s.length - (i + l) - 1, by omega⟩
      rw [hf, scanLoop_step f hlt hfp hch]
      have hstack' : lk ≤ l + 1 →
          (match (getNode t next).value with
           | some w => (i + l, w) :: stack
           | none => stack).head? = some (i + lk - 1, v) := by
        intro hlk1
        by_cases hcase : lk = l + 1
        · have hvv : (getNode t next).value = some v := by
            have hval : valueAt t s i (l + 1) = some v := by
              rw [← hcase]
              exact hacc
            unfold valueAt at hval
            rw [hnextW] at hval
            simpa [nodeValue] using hval
          rw [hvv]
          have harith : i + l = i + lk - 1 := by omega
          rw [harith]
          rfl
        · have hlk : lk ≤ l := by omega
          have hnone : (getNode t next).value = none := by
            have := hmax (l + 1) next (by omega) hl1 hnextW
            simpa [nodeValue] using this
          rw [hnone]
          exact hstack hlk
      have hres := ih (l + 1) next _ (by omega) hnextW hstack'
      have hfe : f = s.length - (i + (l + 1)) := by omega
      rw [hfe]
      exact hres

lemma walk_pos_lt {t : Table V} {s : List Char} {i l m : Nat}
    (h : walkFrom t s i (l + 1) = some m) : i < s.length := by
  have h1 : (walkAux t s 0 i 1).isSome := by
    apply walk_le t s 0 i (l + 1) 1 (by omega)
    unfold walkFrom at h
    rw [h]
    rfl
  obtain ⟨m1, hm1⟩ := Option.isSome_iff_exists.mp h1
  have hst : stepAt t s 0 i = some m1 := by
    rw [walk_snoc t s 0 0 i] at hm1
    simpa using hm1
  obtain ⟨hlt, -, -⟩ := stepAt_some_elim hst
  exact hlt

/-- C2, counterexample.  On the scenario-5 table (`[0123456789]+ -> 42` over
the digit alphabet) and input `12@34`, position 0 admits accepting prefixes
of lengths 1 < 2, each reached without leaving the alphabet; the claim
demands the token of length 2, but the first item of the iterator is the
`UnknownChar` error at the `@`: fail-fast precedes the pending candidates. -/
theorem C2_counterexample :
    valueAt TD in12at34 0 1 = some 42 ∧ valueAt TD in12at34 0 2 = some 42 ∧
    iterNext TD in12at34 0 = some (.error (.unknownChar '@' 2)) := by decide

/-- C2, amended.  Maximal munch holds provided the scan's path stops benignly:
if an accepting prefix of length `lk ≥ 1` starting at `i` exists, no longer
accepting prefix exists up to the stopping point `L` of the automaton's walk,
and at `L` the walk stops because the input is exhausted or because an
in-alphabet character has no transition, then the pull at `i` returns the
token of length `lk` (the longest accepting prefix).  When the walk instead
stops at an out-of-alphabet byte, an `UnknownChar` error is emitted instead
(claim C4 and the counterexample). -/
theorem C2_amended (t : Table V) (s : List Char) (i lk L : Nat) (v : V) (nL : Nat)
    (h1 : 1 ≤ lk) (hkL : lk ≤ L)
    (hacc : valueAt t s i lk = some v)
    (hmax : ∀ l n, lk < l → l ≤ L → walkFrom t s i l = some n → nodeValue t n = none)
    (hwL : walkFrom t s i L = some nL)
    (hstop : i + L = s.length ∨
      ∃ c pos, s.get? (i + L) = some c ∧ findPos c t.alphabet = some pos ∧
        (getNode t nL).getChildren pos = none) :
    iterNext t s i = some (.ok (v, i, i + lk)) := by
  have hi : i < s.length := by
    obtain ⟨lp, hlp⟩ : ∃ lp, lk = lp + 1 := ⟨lk - 1, by omega⟩
    have hwk : (walkFrom t s i lk).isSome := by
      unfold valueAt at hacc
      cases hq : walkFrom t s i lk with
      | none => rw [hq] at hacc; exact absurd hacc (by simp)
      | some m => simp
    obtain ⟨m, hm⟩ := Option.isSome_iff_exists.mp hwk
    rw [hlp] at hm
    exact walk_pos_lt hm
  unfold iterNext
  rw [if_neg (by omega)]
  exact congrArg some
    (scanMunchAux t s i lk L v nL h1 hkL hacc hmax hwL hstop L 0 0 []
      (by omega) rfl (fun hl => absurd hl (by omega)))

/-- C2, witness for the amended claim: spec scenario 4.  Alphabet `=`, adds
`"=" -> 1` (Eq) and `"==" -> 2` (EqEq); on `===` the first pull emits
`(EqEq, "==")` (indices `[0, 2)`) and the second `(Eq, "=")` (indices
`[2, 3)`). -/
theorem C2_amended_witness :
    iterNext T2 eqs 0 = some (.ok (2, 0, 2)) ∧ slice eqs 0 2 = ['=', '='] ∧
    iterNext T2 eqs 2 = some (.ok (1, 2, 3)) ∧ slice eqs 2 3 = ['='] := by
  refine ⟨?_, by decide, ?_, by decide⟩
  · exact C2_amended T2 eqs 0 2 2 2 2 (by decide) (by decide) (by decide)
      (fun l n hlt hle _ => absurd (Nat.lt_of_lt_of_le hlt hle) (Nat.lt_irrefl 2))
      (by decide)
      (Or.inr ⟨'=', 0, by decide, by decide, by decide⟩)
  · exact C2_amended T2 eqs 2 1 1 1 1 (by decide) (by decide) (by decide)
      (fun l n hlt hle _ => absurd (Nat.lt_of_lt_of_le hlt hle) (Nat.lt_irrefl 1))
      (by decide)
      (Or.inl (by decide))

/-- Forward induction along the walk: if the automaton's path from `nodeId`
at position `j` survives `l` steps and the character at `j + l` is outside
the alphabet, the scan fails there with `UnknownChar`, whatever candidates
are stacked. -/
lemma scanUnknownAux (t : Table V) (s : List Char) (c : Char) :
    ∀ (l nodeId j m index : Nat) (stack : List (Nat × V)),
      walkAux t s nodeId j l = some m → s.get? (j + l) = some c →
      findPos c t.alphabet = none →
      scanLoop t s index nodeId j stack (s.length - j) =
        .error (.unknownChar c (j + l)) := by
  intro l
  induction l with
  | zero =>
      intro nodeId j m index stack hw hg hal
      have hlt : j < s.length := by
        rw [List.get?_eq_getElem?] at hg
        have := (List.getElem?_eq_some.mp hg).1
        omega
      have hgc : s.get ⟨j, hlt⟩ = c := by
        rw [List.get?_eq_getElem?] at hg
        obtain ⟨hb, hh⟩ := List.getElem?_eq_some.mp hg
        rw [List.get_eq_getElem]
        exact hh
      obtain ⟨f, hf⟩ : ∃ f, s.length - j = f + 1 := ⟨s.length - j - 1, by omega⟩
      rw [hf, scanLoop_unknown_eq f hlt (hgc ▸ hal), hgc]
      rfl
  | succ l ih =>
      intro nodeId j m index stack hw hg hal
      have hst : ∃ next, stepAt t s nodeId j = some next := by
        unfold walkAux at hw
        cases hq : stepAt t s nodeId j with
        | none => rw [hq] at hw; exact absurd hw (by simp)
        | some next => exact ⟨next, rfl⟩
      obtain ⟨next, hnext⟩ := hst
      have hrest : walkAux t s next (j + 1) l = some m := by
        unfold walkAux at hw
        rw [hnext] at hw
        exact hw
      obtain ⟨hlt, pos, hfp, hch⟩ := stepAt_some_elim hnext
      obtain ⟨f, hf⟩ : ∃ f, s.length - j = f + 1 := ⟨s.length - j - 1, by omega⟩
      rw [hf, scanLoop_step f hlt hfp hch]
      have hfe : f = s.length - (j + 1) := by omega
      have hge : j + 1 + l = j + (l + 1) := by omega
      rw [hfe]
      rw [show j + (l + 1) = j + 1 + l from by omega]
      exact ih next (j + 1) m index _ hrest (by rw [hge]; exact hg) hal

/-- C4.  During a per-token scan from cursor `i`, the moment the path reads a
byte outside the alphabet (at offset `l` along a surviving walk), the item is
`UnknownChar` at that position - immediately, regardless of the candidate
stack accumulated so far. -/
theorem C4_fail_fast (t : Table V) (s : List Char) (i l n : Nat) (c : Char)
    (hw : walkFrom t s i l = some n) (hc : s.get? (i + l) = some c)
    (hal : findPos c t.alphabet = none) :
    iterNext t s i = some (.error (.unknownChar c (i + l))) := by
  have hlt : i + l < s.length := by
    rw [List.get?_eq_getElem?] at hc
    exact (List.getElem?_eq_some.mp hc).1
  unfold iterNext
  rw [if_neg (by omega)]
  exact congrArg some (scanUnknownAux t s c l 0 i n i [] hw hc hal)

/-- C4, witness: spec scenario 5.  On the digits table with `[0123456789]+ ->
42` and input `12@34`, the prefix `12` is already an accepted candidate
(length-2 accepting prefix), yet the first item is `UnknownChar('@', 2)` -
the pending `12` is not emitted first. -/
theorem C4_witness :
    valueAt TD in12at34 0 2 = some 42 ∧
    iterNext TD in12at34 0 = some (.error (.unknownChar '@' 2)) :=
  ⟨by decide, C4_fail_fast TD in12at34 0 2 2 '@' (by decide) (by decide) (by decide)⟩

/-- Induction along an accept-free walk: with an empty candidate stack and no
accepting node anywhere on the remaining path, a benign stop (end of input
or missing transition on an in-alphabet byte) produces `UnexpectedEnd` at
the scan's start `i`. -/
lemma scanDeadAux (t : Table V) (s : List Char) (i L nL : Nat)
    (hnoacc : ∀ l n, 1 ≤ l → l ≤ L → walkFrom t s i l = some n → nodeValue t n = none)
    (hwL : walkFrom t s i L = some nL)
    (hstop : i + L = s.length ∨
      ∃ c pos, s.get? (i + L) = some c ∧ findPos c t.alphabet = some pos ∧
        (getNode t nL).getChildren pos = none) :
    ∀ (k l node : Nat), l + k = L → walkFrom t s i l = some node →
      scanLoop t s i node (i + l) [] (s.length - (i + l)) =
        .error (.unexpectedEnd i) := by
  intro k
  induction k with
  | zero =>
      intro l node hkl hw
      have hlL : l = L := by omega
      subst hlL
      obtain rfl : node = nL := Option.some.inj (hw.symm.trans hwL)
      rcases hstop with hend | ⟨c, pos, hg, hfp, hch⟩
      · rw [show s.length - (i + l) = 0 from by omega]
        rw [scanLoop_end 0 (by omega)]
        rfl
      · have hlt : i + l < s.length := by
          rw [List.get?_eq_getElem?] at hg
          exact (List.getElem?_eq_some.mp hg).1
        obtain ⟨f, hf⟩ : ∃ f, s.length - (i + l) = f + 1 :=
          ⟨s.length - (i + l) - 1, by omega⟩
        have hgc : s.get ⟨i + l, hlt⟩ = c := by
          rw [List.get?_eq_getElem?] at hg
          obtain ⟨hb, hh⟩ := List.getElem?_eq_some.mp hg
          rw [List.get_eq_getElem]
          exact hh
        rw [hf, scanLoop_dead f hlt (hgc ▸ hfp) hch]
        rfl
  | succ k ih =>
      intro l node hkl hw
      have hl1 : l + 1 ≤ L := by omega
      have hw1 : (walkAux t s 0 i (l + 1)).isSome := by
        apply walk_le t s 0 i L (l + 1) hl1
        unfold walkFrom at hwL
        rw [hwL]
        rfl
      obtain ⟨next, hnext⟩ := Option.isSome_iff_exists.mp hw1
      have hnextW : walkFrom t s i (l + 1) = some next := hnext
      have hnext' : stepAt t s node (i + l) = some next := by
        have hsnoc := walk_snoc t s l 0 i
        rw [hsnoc] at hnext
        unfold walkFrom at hw
        rw [hw] at hnext
        simpa using hnext
      obtain ⟨hlt, pos, hfp, hch⟩ := stepAt_some_elim hnext'
      obtain ⟨f, hf⟩ : ∃ f, s.length - (i + l) = f + 1 :=
        ⟨s.length - (i + l) - 1, by omega⟩
      rw [hf, scanLoop_step f hlt hfp hch]
      have hnone : (getNode t next).value = none := by
        have := hnoacc (l + 1) next (by omega) hl1 hnextW
        simpa [nodeValue] using this
      rw [hnone]
      have hfe : f = s.length - (i + (l + 1)) := by omega
      rw [hfe]
      exact ih (l + 1) next (by omega) hnextW

/-- C9.  A per-token scan beginning at cursor `i` that ends without any
candidate match - the walk from `i` passes no accepting node and stops at end
of input or at a missing transition on an in-alphabet byte - emits
`UnexpectedEnd` whose position is `i`, the start of the failed attempt, not
the position of the byte at which the walk died. -/
theorem C9_unexpected_end (t : Table V) (s : List Char) (i L nL : Nat)
    (hi : i < s.length)
    (hnoacc : ∀ l n, 1 ≤ l → l ≤ L → walkFrom t s i l = some n → nodeValue t n = none)
    (hwL : walkFrom t s i L = some nL)
    (hstop : i + L = s.length ∨
      ∃ c pos, s.get? (i + L) = some c ∧ findPos c t.alphabet = some pos ∧
        (getNode t nL).getChildren pos = none) :
    iterNext t s i = some (.error (.unexpectedEnd i)) := by
  unfold iterNext
  rw [if_neg (by omega)]
  exact congrArg some
    (scanDeadAux t s i L nL hnoacc hwL hstop L 0 0 (by omega) rfl)

/-- C9, witness: spec scenario 6.  Alphabet `abcdef`, pattern `"abc" -> 9`;
on `abcdef` the first pull emits `(Abc, "abc")` and the second, scanning from
cursor 3, dies at the root on `d` with no candidate and reports
`UnexpectedEnd{position: 3}`. -/
theorem C9_witness :
    iterNext T9 inAbcDef 0 = some (.ok (9, 0, 3)) ∧
    slice inAbcDef 0 3 = ['a', 'b', 'c'] ∧
    iterNext T9 inAbcDef 3 = some (.error (.unexpectedEnd 3)) :=
  ⟨by decide, by decide,
    C9_unexpected_end T9 inAbcDef 3 0 0 (by decide)
      (fun l n hl1 hl0 _ => absurd (Nat.le_trans hl1 hl0) (by decide))
      (by decide)
      (Or.inr ⟨'d', 3, by decide, by decide, by decide⟩)⟩

lemma slice_append (s : List Char) (a b c : Nat) (hab : a ≤ b) (hbc : b ≤ c) :
    slice s a b ++ slice s b c = slice s a c := by
  unfold slice
  have h1 : s.drop b = (s.drop a).drop (b - a) := by
    rw [List.drop_drop]
    congr 1
    omega
  rw [h1, ← List.take_add]
  congr 1
  omega

lemma emit_ok_bounds {index : Nat} {s : List Char} {stack : List (Nat × V)}
    {v : V} {a b : Nat}
    (hstk : ∀ p w, (p, w) ∈ stack → index ≤ p ∧ p < s.length)
    (h : emitCandidate index stack = .ok (v, a, b)) :
    a = index ∧ index < b ∧ b ≤ s.length := by
  cases stack with
  | nil => exact absurd h (by simp [emitCandidate])
  | cons hd tl =>
      obtain ⟨p, w⟩ := hd
      simp only [emitCandidate, Except.ok.injEq, Prod.mk.injEq] at h
      obtain ⟨-, ha, hb⟩ := h
      have hp := hstk p w (List.mem_cons_self _ _)
      exact ⟨ha.symm, by omega, by omega⟩

lemma scanLoop_ok_bounds {t : Table V} {s : List Char} {index : Nat} {v : V}
    {a b : Nat} :
    ∀ (fuel nodeId progress : Nat) (stack : List (Nat × V)),
      (∀ p w, (p, w) ∈ stack → index ≤ p ∧ p < s.length) →
      index ≤ progress →
      scanLoop t s index nodeId progress stack fuel = .ok (v, a, b) →
      a = index ∧ index < b ∧ b ≤ s.length := by
  intro fuel
  induction fuel with
  | zero => exact fun nodeId progress stack hstk _ h => emit_ok_bounds hstk h
  | succ fuel ih =>
      intro nodeId progress stack hstk hpr h
      by_cases hp : progress < s.length
      · cases hfp : findPos (s.get ⟨progress, hp⟩) t.alphabet with
        | none =>
            rw [scanLoop_unknown_eq fuel hp hfp] at h
            exact absurd h (by simp)
        | some pos =>
            cases hch : (getNode t nodeId).getChildren pos with
            | none =>
                rw [scanLoop_dead fuel hp hfp hch] at h
                exact emit_ok_bounds hstk h
            | some next =>
                rw [scanLoop_step fuel hp hfp hch] at h
                refine ih next (progress + 1) _ ?_ (by omega) h
                cases hv : (getNode t next).value with
                | none => exact fun p w2 hmem => hstk p w2 hmem
                | some w =>
                    intro p w2 hmem
                    have hmem2 : (p, w2) ∈ (progress, w) :: stack := hmem
                    rcases List.mem_cons.mp hmem2 with heq | htl
                    · rw [Prod.mk.injEq] at heq
                      obtain ⟨rfl, -⟩ := heq
                      exact ⟨hpr, hp⟩
                    · exact hstk p w2 htl
      · rw [scanLoop_end (fuel + 1) (by omega)] at h
        exact emit_ok_bounds hstk h

lemma iterNext_ok_bounds {t : Table V} {s : List Char} {index : Nat} {v : V}
    {a b : Nat} (h : iterNext t s index = some (.ok (v, a, b))) :
    a = index ∧ index < b ∧ b ≤ s.length := by
  unfold iterNext at h
  by_cases hle : s.length ≤ index
  · rw [if_pos hle] at h
    exact absurd h (by simp)
  · rw [if_neg hle] at h
    exact scanLoop_ok_bounds (s.length - index) 0 index [] (by simp)
      (Nat.le_refl index) (Option.some.inj h)

lemma collect_covers (t : Table V) (s : List Char) :
    ∀ (fuel index : Nat) (toks : List (V × Nat × Nat)),
      index ≤ s.length →
      collectTokens t s fuel index = .ok toks →
      covers V index toks s.length ∧
        (toks.map (fun x => slice s x.2.1 x.2.2)).flatten = slice s index s.length := by
  intro fuel
  induction fuel with
  | zero =>
      intro index toks _ h
      exact absurd h (by simp [collectTokens])
  | succ fuel ih =>
      intro index toks hle h
      unfold collectTokens at h
      cases hit : iterNext t s index with
      | none =>
          rw [hit] at h
          simp only [] at h
          obtain rfl : ([] : List (V × Nat × Nat)) = toks := Except.ok.inj h
          have hend : s.length ≤ index := by
            by_contra hlt
            unfold iterNext at hit
            rw [if_neg hlt] at hit
            exact absurd hit (by simp)
          obtain rfl : index = s.length := by omega
          constructor
          · rfl
          · simp [slice]
      | some res =>
          cases res with
          | error e =>
              rw [hit] at h
              simp only [] at h
              exact absurd h (by simp)
          | ok tok =>
              rw [hit] at h
              obtain ⟨v, a, b⟩ := tok
              simp only [] at h
              obtain ⟨ha, hab, hbs⟩ := iterNext_ok_bounds hit
              cases hcol : collectTokens t s fuel b with
              | error e =>
                  rw [hcol] at h
                  exact absurd h (by simp)
              | ok rest =>
                  rw [hcol] at h
                  obtain rfl : (v, a, b) :: rest = toks := Except.ok.inj h
                  obtain ⟨hcov, hjoin⟩ := ih b rest hbs hcol
                  refine ⟨⟨ha, hab, hcov⟩, ?_⟩
                  simp only [List.map_cons, List.flatten_cons]
                  rw [hjoin]
                  subst ha
                  exact slice_append s a b s.length (by omega) hbs

/-- C3.  If `lexer(x)` collects without error, the emitted tokens start at 0,
are adjacent - each token's start index is its predecessor's (exclusive) end
index, i.e. the predecessor's inclusive end plus one - cover the input up to
its length with no gap or overlap, and the concatenation of their slices is
exactly `x`. -/
theorem C3_total_consumption (t : Table V) (s : List Char)
    (toks : List (V × Nat × Nat)) (h : lexAll t s = .ok toks) :
    covers V 0 toks s.length ∧
      (toks.map (fun x => slice s x.2.1 x.2.2)).flatten = s := by
  obtain ⟨hcov, hjoin⟩ := collect_covers t s (s.length + 1) 0 toks (by omega) h
  refine ⟨hcov, ?_⟩
  rw [hjoin]
  simp [slice, List.take_length]

/-- C3, witness: on the scenario-4 table and input `===`, the collected run
is `[(EqEq, [0,2)), (Eq, [2,3))]`; the theorem instantiates to adjacency and
total consumption of `===`. -/
theorem C3_witness :
    lexAll T2 eqs = .ok [(2, 0, 2), (1, 2, 3)] ∧
    (covers Nat 0 [(2, 0, 2), (1, 2, 3)] 3 ∧
      ([(2, 0, 2), (1, 2, 3)].map (fun x => slice eqs x.2.1 x.2.2)).flatten = eqs) :=
  ⟨by decide, C3_total_consumption T2 eqs [(2, 0, 2), (1, 2, 3)] (by decide)⟩

lemma valuesNone_getNode {t : Table V} (h : valuesNone t) (i : Nat) :
    (getNode t i).value = none := by
  unfold getNode
  rcases Nat.lt_or_ge i t.nodes.length with hlt | hge
  · rw [List.getD_eq_getElem?_getD, List.getElem?_eq_getElem hlt]
    exact h _ (List.getElem_mem hlt)
  · rw [List.getD_eq_default _ _ hge]
    rfl

lemma setChildren_ok_value {n n' : Node V} {i c : Nat}
    (h : n.setChildren i c = .ok n') : n'.value = n.value := by
  unfold Node.setChildren at h
  cases hq : n.children.get? i with
  | none =>
      rw [hq] at h
      obtain rfl := Except.ok.inj h
      rfl
  | some o =>
      rw [hq] at h
      cases o with
      | none =>
          simp only [] at h
          obtain rfl := Except.ok.inj h
          rfl
      | some existing =>
          simp only [] at h
          by_cases he : existing = c
          · rw [if_neg (by simp [he])] at h
            obtain rfl := Except.ok.inj h
            rfl
          · rw [if_pos (by simpa using he)] at h
            exact absurd h (by simp)

lemma valuesNone_setNode {t : Table V} {i : Nat} {n : Node V}
    (ht : valuesNone t) (hn : n.value = none) : valuesNone (setNode t i n) := by
  intro m hm
  rcases List.mem_or_eq_of_mem_set hm with hmem | rfl
  · exact ht m hmem
  · exact hn

lemma valuesNone_linkDropped {t : Table V} (ht : valuesNone t)
    (nid i c : Nat) : valuesNone (linkDropped t nid i c) := by
  unfold linkDropped
  cases hsc : (getNode t nid).setChildren i c with
  | error e => exact ht
  | ok n =>
      exact valuesNone_setNode ht
        ((setChildren_ok_value hsc).trans (valuesNone_getNode ht nid))

lemma valuesNone_appendNode {t : Table V} (ht : valuesNone t)
    (current child : Nat) : valuesNone (appendNode t current child).1 := by
  unfold appendNode
  cases (getNode t current).getChildren child with
  | some next => exact ht
  | none =>
      apply valuesNone_linkDropped
      intro m hm
      rcases List.mem_append.mp hm with hmem | hmem
      · exact ht m hmem
      · rw [List.mem_singleton.mp hmem]
        rfl

lemma valuesNone_addFromRange {range currents : List Nat} :
    ∀ {t : Table V}, valuesNone t → valuesNone (addFromRange t range currents).1 := by
  unfold addFromRange
  suffices hgen : ∀ (cs : List Nat) (acc : Table V × List Nat), valuesNone acc.1 →
      valuesNone (cs.foldl
        (fun acc current =>
          range.foldl
            (fun acc2 pos =>
              let r := appendNode acc2.1 current pos
              (r.1, acc2.2 ++ [r.2]))
            acc)
        acc).1 by
    intro t ht
    exact hgen currents (t, []) ht
  intro cs
  induction cs with
  | nil => exact fun acc h => h
  | cons current rest ih =>
      intro acc hacc
      apply ih
      clear ih
      induction range generalizing acc with
      | nil => exact hacc
      | cons pos ps ihr =>
          apply ihr
          exact valuesNone_appendNode hacc current pos

lemma valuesNone_selfLoops {t : Table V} (ht : valuesNone t)
    (currents range : List Nat) : valuesNone (selfLoops t currents range) := by
  unfold selfLoops
  induction currents generalizing t with
  | nil => exact ht
  | cons current rest ih =>
      apply ih
      clear ih
      induction range generalizing t with
      | nil => exact ht
      | cons pos ps ihr => exact ihr (valuesNone_linkDropped ht current pos current)

lemma valuesNone_addLoop :
    ∀ (fuel : Nat) (chars : List Char) (currents : List Nat) (t t1 : Table V)
      (cur : List Nat),
      valuesNone t → addLoop t fuel chars currents = .ok (t1, cur) →
      valuesNone t1 := by
  intro fuel
  induction fuel with
  | zero =>
      intro chars currents t t1 cur _ h
      exact absurd h (by simp [addLoop])
  | succ fuel ih =>
      intro chars currents t t1 cur ht h
      cases chars with
      | nil =>
          unfold addLoop at h
          obtain ⟨rfl, -⟩ := Prod.mk.injEq .. ▸ Except.ok.inj h
          exact ht
      | cons ch rest =>
          unfold addLoop at h
          simp only [] at h
          cases hbr : (if ch = '[' then parseClass t rest ([] : List Nat)
              else
                match calculatePosition t ch with
                | .ok pos => .ok ([pos], rest)
                | .error e => .error e) with
          | error e2 =>
              rw [hbr] at h
              exact absurd h (by simp)
          | ok pr =>
              obtain ⟨range, rest1⟩ := pr
              rw [hbr] at h
              simp only [] at h
              split at h
              · exact ih _ _ _ _ _
                  (valuesNone_selfLoops (valuesNone_addFromRange ht) _ range) h
              · exact ih _ _ _ _ _ (valuesNone_addFromRange ht) h

lemma dedup_nodup (l : List Nat) : (dedup l).Nodup := by
  unfold dedup
  suffices hgen : ∀ (xs acc : List Nat), acc.Nodup →
      (xs.foldl (fun acc x => if x ∈ acc then acc else acc ++ [x]) acc).Nodup by
    exact hgen l [] List.nodup_nil
  intro xs
  induction xs with
  | nil => exact fun acc h => h
  | cons x rest ih =>
      intro acc hacc
      by_cases hx : x ∈ acc
      · simpa [hx] using ih acc hacc
      · have hcat : (acc ++ [x]).Nodup := by
          rw [show acc ++ [x] = acc ++ x :: [] from rfl, List.nodup_middle]
          rw [List.nodup_cons]
          simpa using ⟨hx, hacc⟩
        simpa [hx] using ih (acc ++ [x]) hcat

lemma getNode_setNode_ne {t : Table V} {i j : Nat} (n : Node V) (hne : j ≠ i) :
    getNode (setNode t i n) j = getNode t j := by
  unfold getNode setNode
  simp only [List.getD_eq_getElem?_getD]
  rw [List.getElem?_set_ne (by omega)]

lemma setValues_ok (v : V) :
    ∀ (ids : List Nat) (t : Table V),
      (∀ id ∈ ids, (getNode t id).value = none) → ids.Nodup →
      ∃ t', setValues t ids v = .ok t' := by
  intro ids
  induction ids with
  | nil => exact fun t _ _ => ⟨t, rfl⟩
  | cons i rest ih =>
      intro t hvals hnd
      have hi : (getNode t i).value = none := hvals i (List.mem_cons_self _ _)
      obtain ⟨hnotmem, hndrest⟩ := List.nodup_cons.mp hnd
      have hstep : (getNode t i).setValue v =
          .ok { getNode t i with value := some v } := by
        unfold Node.setValue
        rw [hi]
      obtain ⟨t', ht'⟩ := ih (setNode t i { getNode t i with value := some v })
        (fun id hid => by
          rw [getNode_setNode_ne _ (fun heq => hnotmem (by rw [← heq]; exact hid))]
          exact hvals id (List.mem_cons_of_mem i hid))
        hndrest
      refine ⟨t', ?_⟩
      unfold setValues
      rw [hstep]
      exact ht'

lemma parseClass_error {t : Table V} :
    ∀ (chars : List Char) (range : List Nat) (e : TableError V),
      parseClass t chars range = .error e →
      e = .invalidRange ∨ ∃ c, e = .invalidInput c := by
  intro chars
  induction chars with
  | nil =>
      intro range e h
      exact Or.inl (Except.error.inj h).symm
  | cons c rest ih =>
      intro range e h
      unfold parseClass at h
      split at h
      · split at h
        · exact Or.inl (Except.error.inj h).symm
        · exact absurd h (by simp)
      · split at h
        · rename_i e2 heq
          unfold calculatePosition at heq
          split at heq
          · exact absurd heq (by simp)
          · rename_i c2 hfp
            obtain rfl : TableError.invalidInput (V := V) c = e2 :=
              Except.error.inj heq
            exact Or.inr ⟨c, (Except.error.inj h).symm⟩
        · exact ih _ e h

lemma addLoop_error {t : Table V} :
    ∀ (fuel : Nat) (chars : List Char) (currents : List Nat) (e : TableError V),
      addLoop t fuel chars currents = .error e →
      e = .invalidRange ∨ ∃ c, e = .invalidInput c := by
  intro fuel
  induction fuel generalizing t with
  | zero =>
      intro chars currents e h
      exact Or.inl (Except.error.inj h).symm
  | succ fuel ih =>
      intro chars currents e h
      cases chars with
      | nil => exact absurd h (by simp [addLoop])
      | cons ch rest =>
          unfold addLoop at h
          simp only [] at h
          by_cases hch : ch = '['
          · rw [if_pos hch] at h
            cases hpc : parseClass t rest ([] : List Nat) with
            | error e2 =>
                rw [hpc] at h
                obtain rfl : e2 = e := Except.error.inj h
                exact parseClass_error _ _ _ hpc
            | ok pr =>
                obtain ⟨range, rest1⟩ := pr
                rw [hpc] at h
                simp only [] at h
                split at h
                · exact ih _ _ _ h
                · exact ih _ _ _ h
          · rw [if_neg hch] at h
            cases hcp : calculatePosition t ch with
            | error e2 =>
                rw [hcp] at h
                obtain rfl : e2 = e := Except.error.inj h
                unfold calculatePosition at hcp
                cases hfp : findPos ch t.alphabet with
                | none =>
                    rw [hfp] at hcp
                    exact Or.inr ⟨ch, (Except.error.inj hcp).symm⟩
                | some pos =>
                    rw [hfp] at hcp
                    exact absurd hcp (by simp)
            | ok pos =>
                rw [hcp] at h
                simp only [] at h
                split at h
                · exact ih _ _ _ h
                · exact ih _ _ _ h

lemma add_no_self_conflict (t : Table V) (s : List Char) (v x y : V)
    (hvn : valuesNone t) : add t s v ≠ .error (.valueAlreadyDefined x y) := by
  unfold add
  by_cases hascii : asciiOnly s
  · rw [if_neg (by simp [hascii])]
    cases hal : addLoop t (s.length + 1) s [0] with
    | error e =>
        rcases addLoop_error _ _ _ _ hal with rfl | ⟨c, rfl⟩ <;> simp
    | ok r =>
        obtain ⟨t1, cur⟩ := r
        have hvn1 := valuesNone_addLoop (s.length + 1) s [0] t t1 cur hvn hal
        obtain ⟨t', ht'⟩ := setValues_ok v (dedup cur) t1
          (fun id _ => valuesNone_getNode hvn1 id) (dedup_nodup cur)
        simp only []
        rw [ht']
        simp
  · rw [if_pos (by simp [hascii])]
    simp

/-- C8.  A node's accept value is set at most once: `set_value` on a node
whose value is already set fails with `ValueAlreadyDefined` carrying both
payloads, and `add` propagates that error (shown concretely: re-adding a
pattern fails with both values).  Within one `add` the frontier is
de-duplicated before installation, so on a table with no values yet - in
particular a fresh one - an `add` never conflicts with itself, whatever
duplicates classes and self-loops put in the frontier; concretely,
`add("[abab]", 5)` on a fresh table succeeds. -/
theorem C8_value_set_once {V : Type} (n : Node V) (cur req : V)
    (t : Table V) (s : List Char) (v x y : V)
    (hn : n.value = some cur) (hvn : valuesNone t) :
    n.setValue req = .error (.valueAlreadyDefined cur req) ∧
    add t s v ≠ .error (.valueAlreadyDefined x y) ∧
    add T1b ['a'] 2 = .error (.valueAlreadyDefined 1 2) ∧
    add (Table.new Nat alphaAB) ['[', 'a', 'b', 'a', 'b', ']'] 5 =
      .ok ⟨alphaAB,
        [⟨[some 1, some 2], none⟩, ⟨[none, none], some 5⟩,
         ⟨[none, none], some 5⟩]⟩ := by
  refine ⟨?_, add_no_self_conflict t s v x y hvn, by decide, by decide⟩
  unfold Node.setValue
  rw [hn]

/-- C8, witness: node 1 of the `[ab]+[ab]` table already holds 7, so a
`set_value(9)` on it reports both payloads; a fresh one-letter table accepts
any single `add` without self-conflict. -/
theorem C8_witness :
    (getNode TC1 1).setValue 9 = .error (.valueAlreadyDefined 7 9) ∧
    add (Table.new Nat ['a']) ['a'] 3 ≠ .error (.valueAlreadyDefined 0 0) ∧
    add T1b ['a'] 2 = .error (.valueAlreadyDefined 1 2) ∧
    add (Table.new Nat alphaAB) ['[', 'a', 'b', 'a', 'b', ']'] 5 =
      .ok ⟨alphaAB,
        [⟨[some 1, some 2], none⟩, ⟨[none, none], some 5⟩,
         ⟨[none, none], some 5⟩]⟩ :=
  C8_value_set_once (getNode TC1 1) 7 9 (Table.new Nat ['a']) ['a'] 3 0 0
    (by decide) (by unfold valuesNone; decide)

end MTable
